import Mathlib

/-!
Verification of the mp4_encoder repository (src/encode.py).

The Python module is shallowly embedded: strings are `List Char`,
the filesystem is an explicit structure mutated by the modelled
operations, and the outcomes of fallible OS calls (directory creation,
moves, deletes, the external HandBrake process) are supplied by an
environment of oracles.  Every definition follows the source line by
line; external interfaces (os.path, os.walk, the POSIX shell used by
subprocess.call(cmd, shell=True)) are modelled with their documented
semantics.
-/

/-- Strings of the embedded program are lists of characters. -/
abbrev Str := List Char

/-- Model of os.path.basename: the part of the path after the last '/'. -/
def basenameChars (p : Str) : Str :=
  (p.reverse.takeWhile (fun c => c ≠ '/')).reverse

/-- Model of posixpath.join for two components: if the second starts with
'/', it wins; otherwise the parts are joined, inserting '/' unless the
first is empty or already ends with '/'. -/
def pyJoin (a b : Str) : Str :=
  if b.head? = some '/' then b
  else if a = [] ∨ a.getLast? = some '/' then a ++ b
  else a ++ '/' :: b

/-- Model of os.path.splitext(p)[1]: the extension starts at the last dot
of the basename, provided some non-dot character of the basename precedes
that dot (leading dots of the basename never begin an extension). -/
def splitextExt (p : Str) : Str :=
  if '.' ∈ (basenameChars p).dropWhile (fun c => c = '.') then
    '.' :: ((basenameChars p).reverse.takeWhile (fun c => c ≠ '.')).reverse
  else []

/-- Substring test: does the needle occur contiguously in the haystack? -/
def containsSub (needle : Str) : Str → Bool
  | [] => needle.isEmpty
  | c :: t => needle.isPrefixOf (c :: t) || containsSub needle t

/-- Core of Python str.replace for a nonempty pattern `oh :: ot`:
left-to-right, non-overlapping replacement of every occurrence by `new`.
The `fuel` argument only makes the recursion structural (so that the
kernel can evaluate the function); it is always instantiated with the
length of the string, which the recursion never exhausts. -/
def pyReplaceFuel (oh : Char) (ot new : Str) : Nat → Str → Str
  | _, [] => []
  | fuel + 1, c :: rest =>
    if (oh :: ot).isPrefixOf (c :: rest) then
      new ++ pyReplaceFuel oh ot new fuel (rest.drop ot.length)
    else
      c :: pyReplaceFuel oh ot new fuel rest
  | 0, s => s

/-- Python str.replace for a nonempty pattern `oh :: ot`. -/
def pyReplaceCore (oh : Char) (ot new : Str) (s : Str) : Str :=
  pyReplaceFuel oh ot new s.length s

/-- Model of Python str.replace(old, new): for an empty pattern the
replacement is inserted at every character boundary (CPython semantics),
otherwise every non-overlapping occurrence is replaced left to right. -/
def pyReplace (s old new : Str) : Str :=
  match old with
  | [] => new ++ s.foldr (fun c acc => c :: (new ++ acc)) []
  | oh :: ot => pyReplaceCore oh ot new s

/-- The recognized media extensions (Encoder.valid_extensions). -/
def validExtensions : List Str :=
  [".mkv".data, ".mp4".data, ".m4v".data, ".avi".data, ".wmv".data, ".ts".data]

/-- Encoder.sample_file: re.search('sample', filename, re.IGNORECASE)
modelled as a case-insensitive substring test on the full path. -/
def sampleFile (filename : Str) : Bool :=
  containsSub "sample".data (filename.map Char.toLower)

/-- The output path computed by Handbrake.encode:
os.path.join(working_dir,
  os.path.basename(media_file).replace(os.path.splitext(media_file)[1], '.m4v')). -/
def handbrakeOutputFile (workingDir mediaFile : Str) : Str :=
  pyJoin workingDir
    (pyReplace (basenameChars mediaFile) (splitextExt mediaFile) ".m4v".data)

/-- Following the spec's words (for comparison with `handbrakeOutputFile`):
the basename of the media file with its final extension stripped and
'.m4v' appended, rooted in the working directory. -/
def specOutputFile (workingDir mediaFile : Str) : Str :=
  pyJoin workingDir
    ((basenameChars mediaFile).take
      ((basenameChars mediaFile).length - (splitextExt mediaFile).length)
      ++ ".m4v".data)

/-- `old` occurs in `b` at no position other than as its final suffix. -/
def occursOnlyAsSuffix (old b : Str) : Bool :=
  (List.range b.length).all
    (fun i => !(old.isPrefixOf (b.drop i)) || decide (b.length ≤ i + old.length))

/-- One quoted option of the HandBrake command line:
'--flag="{value}"'.format(value). -/
def fmtQuoted (flag v : Str) : Str :=
  flag ++ '"' :: (v ++ ['"'])

/-- The command string built by Handbrake.encode:
' '.join([exe, '--input="..."', '--output="..."', '--preset="..."']). -/
def handbrakeCmd (exe input output preset : Str) : Str :=
  exe ++ ' ' ::
    (fmtQuoted "--input=".data input ++ ' ' ::
      (fmtQuoted "--output=".data output ++ ' ' ::
        fmtQuoted "--preset=".data preset))

/-- Model of POSIX shell word splitting restricted to the two
metacharacters this command can contain: unquoted spaces separate words,
double quotes toggle quoting and are removed.  `inQ` is the quoting
state, `acc` the (reversed) word being accumulated. -/
def shellTokensGo (s : Str) (inQ : Bool) (acc : Str) : List Str :=
  match s with
  | [] => if acc = [] then [] else [acc.reverse]
  | c :: rest =>
    if c = '"' then shellTokensGo rest (!inQ) acc
    else if inQ = true then shellTokensGo rest true (c :: acc)
    else if c = ' ' then
      (if acc = [] then shellTokensGo rest false []
       else acc.reverse :: shellTokensGo rest false [])
    else shellTokensGo rest false (c :: acc)

/-- The argument words the spawned shell hands to the external tool. -/
def shellTokens (cmd : Str) : List Str :=
  shellTokensGo cmd false []

/-- The default preset of Handbrake.encode. -/
def defaultPreset : Str := "AppleTV 3".data

/-- A snapshot of the filesystem: regular files with (abstract) contents,
and the set of directories.  Association by full path. -/
structure FS where
  files : List (Str × Nat)
  dirs : List Str

/-- Content of the regular file at `p`, if any. -/
def FS.content (fs : FS) (p : Str) : Option Nat :=
  (fs.files.find? (fun e => e.1 = p)).map (fun e => e.2)

/-- Is there a directory at `p`? -/
def FS.isDir (fs : FS) (p : Str) : Bool :=
  fs.dirs.any (fun q => q = p)

/-- Model of os.path.exists: a regular file or a directory at `p`. -/
def FS.pathExists (fs : FS) (p : Str) : Bool :=
  (fs.content p).isSome || fs.isDir p

/-- Write (create or overwrite) the regular file at `p`. -/
def FS.write (fs : FS) (p : Str) (c : Nat) : FS :=
  { fs with files := (p, c) :: fs.files.filter (fun e => ¬(e.1 = p)) }

/-- Remove the regular file at `p`, if present. -/
def FS.remove (fs : FS) (p : Str) : FS :=
  { fs with files := fs.files.filter (fun e => ¬(e.1 = p)) }

/-- The directory paths os.makedirs(p) creates: every prefix of `p` that
ends just before a '/', and `p` itself. -/
def dirPrefixes (p : Str) : List Str :=
  (List.range p.length).filterMap
    (fun i => if p.get? i = some '/' then some (p.take i) else none)
  ++ [p]

/-- Model of os.makedirs: create the directory and its parents. -/
def FS.mkdirs (fs : FS) (p : Str) : FS :=
  { fs with dirs := dirPrefixes p ++ fs.dirs }

/-- Model of a successful shutil.move of the regular file at `src` to the
path `dst`: the content moves, overwriting anything at `dst`. -/
def FS.moveEntry (fs : FS) (src dst : Str) : FS :=
  match fs.content src with
  | some c => (fs.remove src).write dst c
  | none => fs

/-- Oracles deciding the outcome of every fallible OS interaction:
whether os.makedirs raises, whether shutil.move raises, whether os.remove
raises, what the external HandBrake process writes at the output path (if
anything), and its exit status (which, per the source, nobody reads). -/
structure Env where
  mkdirOk : Str → Bool
  moveOk : Str → Str → Bool
  deleteOk : Str → Bool
  toolWrites : Str → Option Nat
  exitStatus : Str → Int

/-- The per-file observable actions of Encoder.encode_media_files.
`forInput` tags each action with the media file whose pipeline issued it. -/
inductive Event where
  | encodeEv (forInput output : Str)
  | moveEv (forInput src : Str) (ok : Bool)
  | deleteEv (forInput path : Str) (ok : Bool)
deriving DecidableEq

/-- The configuration of an Encoder instance (its constructor arguments,
with the source's defaults). -/
structure EncoderCfg where
  inputDir : Str
  destinationDir : Str
  workingDir : Str := "/tmp".data
  deleteSourceFile : Bool := false
  handbrakeCli : Str := "/usr/bin/HandBrakeCLI".data

/-- A Handbrake instance (its constructor arguments, with the source's
default working directory). -/
structure Handbrake where
  mediaFile : Str
  workingDir : Str := "/tmp".data
  executable : Str

/-- Handbrake.encode: computes the output path, spawns the external tool
(which may or may not write the output file; its exit status is ignored),
and returns the computed output path unconditionally. -/
def handbrakeEncode (hb : Handbrake) (preset : Str) (fs : FS) (env : Env) : Str × FS :=
  let outputFile := handbrakeOutputFile hb.workingDir hb.mediaFile
  let cmd := handbrakeCmd hb.executable hb.mediaFile outputFile preset
  let fs1 :=
    match env.toolWrites cmd with
    | some c => fs.write outputFile c
    | none => fs
  (outputFile, fs1)

/-- Second half of Encoder.move_file, after the destination directory has
been ensured: if the file exists, move it to destination_dir/basename
(reporting failure if shutil.move raises); otherwise report failure. -/
def moveFileStep2 (destDir : Str) (fs : FS) (env : Env) (filename : Str) : Bool × FS :=
  if fs.pathExists filename then
    let destinationFile := pyJoin destDir (basenameChars filename)
    if env.moveOk filename destinationFile then
      (true, fs.moveEntry filename destinationFile)
    else (false, fs)
  else (false, fs)

/-- Encoder.move_file: create the destination directory (with parents) if
it does not exist, returning failure if creation raises; then move the
file to destination_dir/basename, returning success. -/
def moveFile (destDir : Str) (fs : FS) (env : Env) (filename : Str) : Bool × FS :=
  if fs.pathExists destDir = false then
    if env.mkdirOk destDir then
      moveFileStep2 destDir (fs.mkdirs destDir) env filename
    else (false, fs)
  else moveFileStep2 destDir fs env filename

/-- Encoder.delete_file: remove the file if it exists (reporting failure
if os.remove raises); report failure if it does not exist. -/
def deleteFile (fs : FS) (env : Env) (filename : Str) : Bool × FS :=
  if fs.pathExists filename then
    if env.deleteOk filename then (true, fs.remove filename)
    else (false, fs)
  else (false, fs)

/-- The body of the loop of Encoder.encode_media_files for one discovered
media file: skip sample files; otherwise construct a Handbrake (note: the
Encoder's working_dir is not passed, so the Handbrake default applies),
encode, move the output — ignoring the move's result — and, if configured,
delete the source file. -/
def runOne (cfg : EncoderCfg) (fs : FS) (env : Env) (m : Str) : FS × List Event :=
  if sampleFile m then (fs, [])
  else
    let hb : Handbrake := { mediaFile := m, executable := cfg.handbrakeCli }
    let enc := handbrakeEncode hb defaultPreset fs env
    let mv := moveFile cfg.destinationDir enc.2 env enc.1
    if cfg.deleteSourceFile then
      let del := deleteFile mv.2 env m
      (del.2, [Event.encodeEv m enc.1, Event.moveEv m enc.1 mv.1,
               Event.deleteEv m m del.1])
    else (mv.2, [Event.encodeEv m enc.1, Event.moveEv m enc.1 mv.1])

/-- The loop of Encoder.encode_media_files over the discovered list. -/
def runFiles (cfg : EncoderCfg) (fs : FS) (env : Env) : List Str → FS × List Event
  | [] => (fs, [])
  | m :: rest =>
    let step := runOne cfg fs env m
    let next := runFiles cfg step.1 env rest
    (next.1, step.2 ++ next.2)

/-- The listing of a directory, as os.walk sees it: a sequence of entries,
each a named regular file or a named subdirectory with its own listing.
(The sequence is encoded into the constructors so the type is a plain,
non-nested inductive.) -/
inductive FTree where
  | nilE : FTree
  | fileE (name : Str) (rest : FTree) : FTree
  | dirE (name : Str) (sub : FTree) (rest : FTree) : FTree
deriving DecidableEq

/-- The (root, filename) pairs contributed by the regular files directly
in a directory listing. -/
def filesOf (root : Str) : FTree → List (Str × Str)
  | FTree.nilE => []
  | FTree.fileE n rest => (root, n) :: filesOf root rest
  | FTree.dirE _ _ rest => filesOf root rest

/-- The pairs contributed by recursing into the subdirectories of a
listing, in listing order. -/
def subWalk (root : Str) : FTree → List (Str × Str)
  | FTree.nilE => []
  | FTree.fileE _ rest => subWalk root rest
  | FTree.dirE n sub rest =>
    (filesOf (pyJoin root n) sub ++ subWalk (pyJoin root n) sub)
      ++ subWalk root rest

/-- Model of os.walk (top-down): at each directory, first the files of
that directory, then the subdirectories in listing order, recursively. -/
def walkPairs (root : Str) (entries : FTree) : List (Str × Str) :=
  filesOf root entries ++ subWalk root entries

/-- `EntryAt root entries (r, n)` holds when the tree rooted at `root`
with listing `entries` contains, somewhere below, a regular file named
`n` inside the directory `r`. -/
inductive EntryAt : Str → FTree → Str × Str → Prop where
  | fileHere {root n rest} : EntryAt root (FTree.fileE n rest) (root, n)
  | fileSkip {root n rest rn} :
      EntryAt root rest rn → EntryAt root (FTree.fileE n rest) rn
  | dirHere {root n sub rest rn} :
      EntryAt (pyJoin root n) sub rn → EntryAt root (FTree.dirE n sub rest) rn
  | dirSkip {root n sub rest rn} :
      EntryAt root rest rn → EntryAt root (FTree.dirE n sub rest) rn

/-- Encoder.media_files: walk the input directory (a missing directory
yields nothing, as os.walk does), keep the filenames whose extension is
in valid_extensions, and record root/filename joined. -/
def mediaFilesImpl (inputDir : Str) (listing : Option FTree) : List Str :=
  match listing with
  | none => []
  | some entries =>
    (walkPairs inputDir entries).filterMap fun rn =>
      if splitextExt rn.2 ∈ validExtensions then some (pyJoin rn.1 rn.2)
      else none

/-- Encoder.encode_media_files: discover the media files, then drive each
through the per-file pipeline. -/
def encodeMediaFiles (cfg : EncoderCfg) (listing : Option FTree)
    (fs : FS) (env : Env) : FS × List Event :=
  runFiles cfg fs env (mediaFilesImpl cfg.inputDir listing)

/-! Helper lemmas about the string primitives. -/

/-- `containsSub` decides contiguous-substring occurrence. -/
theorem containsSub_iff_infix (n : Str) : ∀ h : Str, containsSub n h = true ↔ n <:+: h := by
  intro h
  induction h with
  | nil =>
    simp [containsSub, List.isEmpty_iff]
  | cons c t ih =>
    simp only [containsSub, Bool.or_eq_true, List.isPrefixOf_iff_prefix, ih,
      List.infix_cons_iff]

/-- Membership survives dropWhile. -/
theorem mem_of_mem_dropWhile {p : Char → Bool} {x : Char} :
    ∀ {l : Str}, x ∈ l.dropWhile p → x ∈ l := by
  intro l
  induction l with
  | nil => simp [List.dropWhile]
  | cons c t ih =>
    intro hx
    rw [List.dropWhile_cons] at hx
    by_cases hc : p c = true
    · simp only [hc, if_true] at hx
      exact List.mem_cons_of_mem c (ih hx)
    · simp only [hc, if_false] at hx
      exact hx

/-- If a list contains '.', its `dropWhile (· ≠ '.')` starts with '.'. -/
theorem dropWhile_ne_dot {l : Str} (hl : '.' ∈ l) :
    ∃ r, l.dropWhile (fun c => c ≠ '.') = '.' :: r := by
  induction l with
  | nil => cases hl
  | cons c t ih =>
    rw [List.dropWhile_cons]
    by_cases hc : c = '.'
    · subst hc
      simp
    · simp only [ne_eq, hc, not_false_eq_true, decide_True, if_true]
      rcases List.mem_cons.mp hl with h | h
      · exact absurd h.symm hc
      · exact ih h

/-- When it is nonempty, the extension is a suffix of the basename. -/
theorem splitextExt_suffix {p : Str} (h : splitextExt p ≠ []) :
    splitextExt p <:+ basenameChars p := by
  by_cases hc : '.' ∈ (basenameChars p).dropWhile (fun c => c = '.')
  · have hval : splitextExt p =
        '.' :: ((basenameChars p).reverse.takeWhile (fun c => c ≠ '.')).reverse := by
      unfold splitextExt
      simp [hc]
    rw [hval]
    have hdot : '.' ∈ basenameChars p := mem_of_mem_dropWhile hc
    have hdotrev : '.' ∈ (basenameChars p).reverse := List.mem_reverse.mpr hdot
    obtain ⟨r, hr⟩ := dropWhile_ne_dot hdotrev
    refine ⟨r.reverse, ?_⟩
    have hsplit := List.takeWhile_append_dropWhile (fun c => decide (c ≠ '.'))
      ((basenameChars p).reverse)
    calc r.reverse ++ '.' ::
          ((basenameChars p).reverse.takeWhile (fun c => c ≠ '.')).reverse
        = (((basenameChars p).reverse.takeWhile (fun c => c ≠ '.'))
            ++ '.' :: r).reverse := by
          simp [List.reverse_append]
      _ = basenameChars p := by
          rw [← hr, hsplit, List.reverse_reverse]
  · exfalso
    apply h
    unfold splitextExt
    simp [hc]

/-- The extension is empty or a dot followed by dot-free characters. -/
theorem splitextExt_shape (p : Str) :
    splitextExt p = [] ∨ ∃ w, splitextExt p = '.' :: w ∧ '.' ∉ w := by
  unfold splitextExt
  by_cases hc : '.' ∈ (basenameChars p).dropWhile (fun c => c = '.')
  · refine Or.inr ⟨((basenameChars p).reverse.takeWhile (fun c => c ≠ '.')).reverse,
      by simp [hc], ?_⟩
    intro hmem
    have := List.mem_takeWhile_imp (List.mem_reverse.mp hmem)
    simp at this
  · exact Or.inl (by simp [hc])

/-- Whatever is a suffix of `b` is a suffix of `pyJoin a b`. -/
theorem suffix_pyJoin {s : Str} (a : Str) {b : Str} (h : s <:+ b) :
    s <:+ pyJoin a b := by
  unfold pyJoin
  by_cases h1 : b.head? = some '/'
  · simpa [h1] using h
  · by_cases h2 : a = [] ∨ a.getLast? = some '/'
    · simp only [h1, if_neg, h2, if_pos, not_false_eq_true]
      exact h.trans (List.suffix_append a b)
    · simp only [h1, h2, if_neg, not_false_eq_true]
      exact (h.trans (List.suffix_cons '/' b)).trans
        (List.suffix_append a ('/' :: b))

/-- Replacing every occurrence of a dot-headed, dot-free-tailed pattern
that ends the string leaves a result ending in the replacement. -/
theorem pyReplaceFuel_suffix (w' new' : Str) (hw : '.' ∉ w') :
    ∀ fuel s, s.length ≤ fuel → ('.' :: w') <:+ s →
      new' <:+ pyReplaceFuel '.' w' new' fuel s := by
  intro fuel
  induction fuel with
  | zero =>
    intro s hlen hsuf
    have hnil : s = [] := List.length_eq_zero.mp (Nat.le_zero.mp hlen)
    subst hnil
    exact absurd (List.suffix_nil.mp hsuf) (by simp)
  | succ fuel ih =>
    intro s hlen hsuf
    match s with
    | [] => exact absurd (List.suffix_nil.mp hsuf) (by simp)
    | c :: rest =>
      by_cases hp : ('.' :: w').isPrefixOf (c :: rest)
      · have hpre : ('.' :: w') <+: (c :: rest) := List.isPrefixOf_iff_prefix.mp hp
        obtain ⟨u, hu⟩ := hpre
        obtain ⟨t, ht⟩ := hsuf
        have hulen : u.length ≤ fuel := by
          have : ('.' :: w').length + u.length = (c :: rest).length := by
            rw [← hu, List.length_append]
          simp only [List.length_cons] at this hlen ⊢
          omega
        have hdrop : rest.drop w'.length = u := by
          have h1 : (('.' :: w') ++ u).drop ('.' :: w').length = u := List.drop_left _ _
          rw [hu] at h1
          simpa [List.length_cons, List.drop_succ_cons] using h1
        have hres : pyReplaceFuel '.' w' new' (fuel + 1) (c :: rest)
            = new' ++ pyReplaceFuel '.' w' new' fuel u := by
          rw [pyReplaceFuel, if_pos hp, hdrop]
        rw [hres]
        have hgood : ('.' :: w') <:+ u → new' <:+ new' ++ pyReplaceFuel '.' w' new' fuel u :=
          fun hsu => (ih u hulen hsu).trans (List.suffix_append _ _)
        rcases List.append_eq_append_iff.mp (hu.trans ht.symm) with ⟨a', _, ha2⟩ | ⟨c', hc1, hc2⟩
        · exact hgood ⟨a', ha2.symm⟩
        · match u, c' with
          | [], _ =>
            simp [pyReplaceFuel]
          | uh :: ut, [] =>
            simp only [List.nil_append] at hc2
            refine hgood ?_
            rw [← hc2]
          | uh :: ut, ch :: cr =>
            exfalso
            match t, hc1 with
            | [], hc1 =>
              simp only [List.nil_append] at hc1
              rw [← hc1] at hc2
              have hl2 := congrArg List.length hc2
              simp only [List.length_append, List.length_cons] at hl2
              omega
            | th :: tt, hc1 =>
              have hcsuf : (ch :: cr) <:+ w' := by
                refine ⟨tt, ?_⟩
                have := hc1
                simp only [List.cons_append, List.cons.injEq] at this
                exact this.2.symm
              have hch : ch = '.' := by
                have := hc2
                simp only [List.cons_append, List.cons.injEq] at this
                exact this.1.symm
              exact hw (hch ▸ hcsuf.subset (List.mem_cons_self ch cr))
      · have hres : pyReplaceFuel '.' w' new' (fuel + 1) (c :: rest)
            = c :: pyReplaceFuel '.' w' new' fuel rest := by
          rw [pyReplaceFuel, if_neg hp]
        rw [hres]
        obtain ⟨t, ht⟩ := hsuf
        match t, ht with
        | [], ht =>
          exfalso
          apply hp
          rw [List.nil_append] at ht
          exact List.isPrefixOf_iff_prefix.mpr (ht ▸ List.prefix_refl _)
        | th :: tt, ht =>
          have hsr : ('.' :: w') <:+ rest := by
            refine ⟨tt, ?_⟩
            simpa using congrArg List.tail ht
          have hrl : rest.length ≤ fuel := by
            simp only [List.length_cons] at hlen
            omega
          exact ((ih rest hrl hsr).trans (List.suffix_cons c _))

/-- Replacing the empty pattern leaves a result ending in the replacement. -/
theorem pyReplace_empty_suffix (new' : Str) :
    ∀ b : Str, new' <:+ pyReplace b [] new' := by
  have aux : ∀ b : Str, b ≠ [] →
      new' <:+ b.foldr (fun c acc => c :: (new' ++ acc)) [] := by
    intro b
    induction b with
    | nil => intro h; exact absurd rfl h
    | cons c bs ih =>
      intro _
      match bs with
      | [] =>
        simp only [List.foldr, List.append_nil]
        exact List.suffix_cons c new'
      | b' :: bs' =>
        have h1 : new' <:+ (b' :: bs').foldr (fun c acc => c :: (new' ++ acc)) [] :=
          ih (by simp)
        exact (h1.trans (List.suffix_append new' _)).trans (List.suffix_cons c _)
  intro b
  match b with
  | [] =>
    simp [pyReplace]
  | c :: bs =>
    exact ((aux (c :: bs) (by simp)).trans (List.suffix_append new' _))

/-- Unpacking the boolean `occursOnlyAsSuffix`. -/
theorem occursOnlyAsSuffix_spec {old b : Str} (h : occursOnlyAsSuffix old b = true) :
    ∀ i, i + old.length < b.length → old.isPrefixOf (b.drop i) = false := by
  intro i hi
  have hib : i < b.length := by omega
  have := (List.all_eq_true.mp h) i (List.mem_range.mpr hib)
  rcases Bool.or_eq_true_iff.mp this with h1 | h1
  · simpa using h1
  · exact absurd (of_decide_eq_true h1) (by omega)

/-- When the pattern occurs only as the final suffix, replacement strips
the suffix and appends the replacement. -/
theorem pyReplaceFuel_only_suffix (oh : Char) (ot new' : Str) :
    ∀ fuel b, b.length ≤ fuel → (oh :: ot) <:+ b →
      (∀ i, i + (oh :: ot).length < b.length →
        (oh :: ot).isPrefixOf (b.drop i) = false) →
      pyReplaceFuel oh ot new' fuel b
        = b.take (b.length - (oh :: ot).length) ++ new' := by
  intro fuel
  induction fuel with
  | zero =>
    intro b hlen hsuf _
    have hnil : b = [] := List.length_eq_zero.mp (Nat.le_zero.mp hlen)
    subst hnil
    exact absurd (List.suffix_nil.mp hsuf) (by simp)
  | succ fuel ih =>
    intro b hlen hsuf honly
    match b with
    | [] => exact absurd (List.suffix_nil.mp hsuf) (by simp)
    | c :: rest =>
      have hol : (oh :: ot).length ≤ (c :: rest).length := hsuf.length_le
      by_cases heq : (c :: rest).length = (oh :: ot).length
      · have hb : c :: rest = oh :: ot :=
          (hsuf.sublist.eq_of_length (by rw [heq])).symm
        have hp : (oh :: ot).isPrefixOf (c :: rest) = true :=
          List.isPrefixOf_iff_prefix.mpr (hb ▸ List.prefix_refl _)
        rw [pyReplaceFuel, if_pos hp]
        have hrt : rest.drop ot.length = [] := by
          apply List.eq_nil_of_length_eq_zero
          simp only [List.length_cons] at heq
          simp only [List.length_drop]
          omega
        rw [hrt]
        have : (c :: rest).length - (oh :: ot).length = 0 := by omega
        rw [this]
        simp [pyReplaceFuel]
      · have hlt : (oh :: ot).length < (c :: rest).length := by omega
        have hp : (oh :: ot).isPrefixOf (c :: rest) = false := by
          have := honly 0 (by simpa using hlt)
          simpa using this
        rw [pyReplaceFuel, if_neg (by rw [hp]; exact Bool.false_ne_true)]
        obtain ⟨t, ht⟩ := hsuf
        have hsr : (oh :: ot) <:+ rest := by
          match t, ht with
          | [], ht =>
            exfalso
            have := congrArg List.length ht
            simp only [List.nil_append] at this
            omega
          | th :: tt, ht =>
            refine ⟨tt, ?_⟩
            simpa using congrArg List.tail ht
        have honly' : ∀ i, i + (oh :: ot).length < rest.length →
            (oh :: ot).isPrefixOf (rest.drop i) = false := by
          intro i hi
          have := honly (i + 1)
            (by simp only [List.length_cons] at hi ⊢; omega)
          simpa [List.drop_succ_cons] using this
        have hrl : rest.length ≤ fuel := by
          simp only [List.length_cons] at hlen
          omega
        rw [ih rest hrl hsr honly']
        have htake : (c :: rest).length - (oh :: ot).length
            = (rest.length - (oh :: ot).length) + 1 := by
          simp only [List.length_cons]
          simp only [List.length_cons] at hlt
          omega
        rw [htake, List.take_succ_cons, List.cons_append]

/-! Concrete scenario used by claim C10: two source files in different
subdirectories with the same basename, both moves succeeding. -/

/-- Filesystem for the C10 scenario. -/
def fsTwoMovies : FS :=
  { files := [("/in/a/movie.mkv".data, 7), ("/in/b/movie.mkv".data, 8)]
    dirs := ["/in".data] }

/-- Environment for the C10 scenario: everything succeeds; the external
tool writes content 1 for the first source and content 2 for the second. -/
def envTwoMovies : Env :=
  { mkdirOk := fun _ => true
    moveOk := fun _ _ => true
    deleteOk := fun _ => true
    toolWrites := fun cmd => if containsSub "/in/a/".data cmd then some 1 else some 2
    exitStatus := fun _ => 0 }

/-- Configuration for the C10 scenario. -/
def cfgTwoMovies : EncoderCfg :=
  { inputDir := "/in".data, destinationDir := "/dest".data }

/-- C2 (amended): the output path computed by Handbrake.encode always ends
in ".m4v"; and whenever the extension of the media file occurs in the
basename only as its final suffix, the computed path agrees with the
spec's description (basename with the final extension stripped and ".m4v"
appended, under the working directory).  In general, however, the code
replaces every occurrence of the extension, not just the final one. -/
theorem c2_output_ends_m4v_and_spec_agreement :
    ∀ (w m : Str),
      ".m4v".data <:+ handbrakeOutputFile w m
      ∧ (splitextExt m ≠ [] →
          occursOnlyAsSuffix (splitextExt m) (basenameChars m) = true →
          handbrakeOutputFile w m = specOutputFile w m) := by
  intro w m
  constructor
  · unfold handbrakeOutputFile
    apply suffix_pyJoin
    rcases splitextExt_shape m with h | ⟨w', hw', hnd⟩
    · rw [h]
      exact pyReplace_empty_suffix _ _
    · have hne : splitextExt m ≠ [] := by rw [hw']; simp
      have hsuf := splitextExt_suffix hne
      rw [hw'] at hsuf
      rw [hw']
      show ".m4v".data <:+
        pyReplaceFuel '.' w' ".m4v".data (basenameChars m).length (basenameChars m)
      exact pyReplaceFuel_suffix w' ".m4v".data hnd (basenameChars m).length
        (basenameChars m) (Nat.le_refl _) hsuf
  · intro hne honly
    rcases splitextExt_shape m with h | ⟨w', hw', _⟩
    · exact absurd h hne
    · have hsuf := splitextExt_suffix hne
      have hspec := occursOnlyAsSuffix_spec honly
      unfold handbrakeOutputFile specOutputFile
      rw [hw'] at hsuf hspec ⊢
      show pyJoin w
          (pyReplaceFuel '.' w' ".m4v".data (basenameChars m).length (basenameChars m))
        = _
      rw [pyReplaceFuel_only_suffix '.' w' ".m4v".data (basenameChars m).length
        (basenameChars m) (Nat.le_refl _) hsuf hspec]

/-- Witness for C2 at a typical input. -/
theorem c2_output_ends_m4v_and_spec_agreement_witness :
    splitextExt "/x/movie.mkv".data ≠ []
    ∧ occursOnlyAsSuffix (splitextExt "/x/movie.mkv".data)
        (basenameChars "/x/movie.mkv".data) = true
    ∧ handbrakeOutputFile "/tmp".data "/x/movie.mkv".data
        = specOutputFile "/tmp".data "/x/movie.mkv".data :=
  ⟨by decide, by decide,
    (c2_output_ends_m4v_and_spec_agreement "/tmp".data "/x/movie.mkv".data).2
      (by decide) (by decide)⟩

/-- C2 counterexample: when the final extension occurs twice in the
basename, the code replaces both occurrences; the output path is not the
basename with its final extension stripped plus ".m4v". -/
theorem c2_counterexample_replace_all_occurrences :
    handbrakeOutputFile "/tmp".data "/x/a.mkv.mkv".data = "/tmp/a.m4v.m4v".data
    ∧ specOutputFile "/tmp".data "/x/a.mkv.mkv".data = "/tmp/a.mkv.m4v".data
    ∧ handbrakeOutputFile "/tmp".data "/x/a.mkv.mkv".data
        ≠ specOutputFile "/tmp".data "/x/a.mkv.mkv".data :=
  ⟨by decide, by decide, by decide⟩

/-- C4: Handbrake.encode returns the computed output path for every
environment — in particular for every exit status of the spawned process
and regardless of whether the tool wrote the output file — and its whole
behavior is unchanged when the exit status oracle is replaced. -/
theorem c4_encode_ignores_exit_status :
    ∀ (hb : Handbrake) (preset : Str) (fs : FS) (env : Env) (es : Str → Int),
      (handbrakeEncode hb preset fs env).1
          = handbrakeOutputFile hb.workingDir hb.mediaFile
      ∧ handbrakeEncode hb preset fs { env with exitStatus := es }
          = handbrakeEncode hb preset fs env :=
  fun _ _ _ _ _ => ⟨rfl, rfl⟩

/-- C6: Encoder.sample_file returns true exactly when the full path
contains the substring "sample" case-insensitively; the two examples of
the spec evaluate as claimed.  (The embedded function is pure.) -/
theorem c6_sample_iff_contains_sample :
    (∀ p : Str, sampleFile p = true ↔ "sample".data <:+: p.map Char.toLower)
    ∧ sampleFile "/a/b/SAMPLE_clip.mkv".data = true
    ∧ sampleFile "/a/b/example.mkv".data = false :=
  ⟨fun p => containsSub_iff_infix "sample".data (p.map Char.toLower),
    by decide, by decide⟩

/-- C10: the output path computed by Handbrake.encode depends only on the
basename of the media file, and Encoder.move_file sends equal output paths
to the same destination path; concretely, running the pipeline over two
distinct sources with equal basenames makes the second moved output
overwrite the first at the shared destination path. -/
theorem c10_output_depends_only_on_basename :
    ∀ (w d m1 m2 : Str), basenameChars m1 = basenameChars m2 →
      handbrakeOutputFile w m1 = handbrakeOutputFile w m2
      ∧ pyJoin d (basenameChars (handbrakeOutputFile w m1))
          = pyJoin d (basenameChars (handbrakeOutputFile w m2))
      ∧ (runFiles cfgTwoMovies fsTwoMovies envTwoMovies
            ["/in/a/movie.mkv".data, "/in/b/movie.mkv".data]).2 =
          [Event.encodeEv "/in/a/movie.mkv".data "/tmp/movie.m4v".data,
           Event.moveEv "/in/a/movie.mkv".data "/tmp/movie.m4v".data true,
           Event.encodeEv "/in/b/movie.mkv".data "/tmp/movie.m4v".data,
           Event.moveEv "/in/b/movie.mkv".data "/tmp/movie.m4v".data true]
      ∧ (runFiles cfgTwoMovies fsTwoMovies envTwoMovies
            ["/in/a/movie.mkv".data, "/in/b/movie.mkv".data]).1.content
          "/dest/movie.m4v".data = some 2 := by
  intro w d m1 m2 h
  have hout : handbrakeOutputFile w m1 = handbrakeOutputFile w m2 := by
    unfold handbrakeOutputFile splitextExt
    rw [h]
  exact ⟨hout, by rw [hout], by decide, by decide⟩

/-- Witness for C10 at two sources with equal basenames. -/
theorem c10_output_depends_only_on_basename_witness :
    basenameChars "/in/a/movie.mkv".data = basenameChars "/in/b/movie.mkv".data
    ∧ handbrakeOutputFile "/tmp".data "/in/a/movie.mkv".data
        = handbrakeOutputFile "/tmp".data "/in/b/movie.mkv".data :=
  ⟨by decide,
    (c10_output_depends_only_on_basename "/tmp".data "/dest".data
      "/in/a/movie.mkv".data "/in/b/movie.mkv".data (by decide)).1⟩

/-- Observer: is the event a deletion? -/
def isDeleteEv : Event → Bool
  | Event.deleteEv _ _ _ => true
  | _ => false

/-- Observer: is the event an encode issued for media file `m`? -/
def isEncodeOf (m : Str) : Event → Bool
  | Event.encodeEv i _ => i = m
  | _ => false

/-- Observer: is the event a move attempt issued for media file `m`? -/
def isMoveOf (m : Str) : Event → Bool
  | Event.moveEv i _ _ => i = m
  | _ => false

/-- Filesystem for the C1 scenario: one source file in the input tree. -/
def fsDeleteDemo : FS :=
  { files := [("/in/movie.mkv".data, 7)], dirs := ["/in".data] }

/-- Environment for the C1 scenario: os.makedirs always raises — so every
move fails at destination creation — while deletes succeed and the tool
writes its output. -/
def envMkdirFails : Env :=
  { mkdirOk := fun _ => false
    moveOk := fun _ _ => true
    deleteOk := fun _ => true
    toolWrites := fun _ => some 1
    exitStatus := fun _ => 0 }

/-- Configuration for the C1 scenario, with delete-source enabled. -/
def cfgDeleteSource : EncoderCfg :=
  { inputDir := "/in".data, destinationDir := "/dest".data,
    deleteSourceFile := true }

/-- Configuration with delete-source disabled (the default). -/
def cfgNoDelete : EncoderCfg :=
  { inputDir := "/in".data, destinationDir := "/dest".data }

/-- When delete-source is disabled, no run ever emits a delete event. -/
theorem runFiles_no_delete (cfg : EncoderCfg) (env : Env)
    (hdf : cfg.deleteSourceFile = false) :
    ∀ (mf : List Str) (fs : FS),
      ((runFiles cfg fs env mf).2.filter isDeleteEv) = [] := by
  intro mf
  induction mf with
  | nil => intro fs; rfl
  | cons x rest ih =>
    intro fs
    simp only [runFiles, List.filter_append]
    rw [ih]
    simp only [List.append_nil]
    by_cases hs : sampleFile x = true
    · simp [runOne, hs]
    · simp [runOne, hs, hdf, isDeleteEv]

/-- C1 counterexample: with delete-source enabled and a destination
directory whose creation fails, the move fails and the source file is
nevertheless deleted: the events show a failed move followed by a
successful delete, and the source file is gone from the final state. -/
theorem c1_counterexample_delete_despite_failed_move :
    (runFiles cfgDeleteSource fsDeleteDemo envMkdirFails ["/in/movie.mkv".data]).2 =
      [Event.encodeEv "/in/movie.mkv".data "/tmp/movie.m4v".data,
       Event.moveEv "/in/movie.mkv".data "/tmp/movie.m4v".data false,
       Event.deleteEv "/in/movie.mkv".data "/in/movie.mkv".data true]
    ∧ fsDeleteDemo.content "/in/movie.mkv".data = some 7
    ∧ (runFiles cfgDeleteSource fsDeleteDemo envMkdirFails
        ["/in/movie.mkv".data]).1.content "/in/movie.mkv".data = none :=
  ⟨by decide, by decide, by decide⟩

/-- Forget the success flags carried by the events, keeping which actions
were invoked, for which file, in which order. -/
def evForgetOk : Event → Event
  | Event.encodeEv i o => Event.encodeEv i o
  | Event.moveEv i s _ => Event.moveEv i s false
  | Event.deleteEv i p _ => Event.deleteEv i p false

/-- C1 (amended): for every non-sample file the pipeline performs one
encode, then one move attempt, and then — exactly when the delete-source
option is enabled — invokes deletion of the source file, regardless of
whether the move succeeded (the success flags are forgotten, and the
statement holds for every environment, hence for every move outcome);
when the option is disabled, a run never invokes deletion. -/
theorem c1_delete_invoked_iff_enabled :
    ∀ (cfg : EncoderCfg) (fs : FS) (env : Env) (m : Str),
      (sampleFile m = false →
        (runOne cfg fs env m).2.map evForgetOk =
          [Event.encodeEv m (handbrakeOutputFile "/tmp".data m),
           Event.moveEv m (handbrakeOutputFile "/tmp".data m) false]
          ++ (if cfg.deleteSourceFile then [Event.deleteEv m m false] else []))
      ∧ (cfg.deleteSourceFile = false →
          ∀ mf, ((runFiles cfg fs env mf).2.filter isDeleteEv) = []) := by
  intro cfg fs env m
  constructor
  · intro hsm
    by_cases hd : cfg.deleteSourceFile = true
    · simp only [runOne, hsm, Bool.false_eq_true, if_false, hd,
        eq_self_iff_true, if_true, List.map, evForgetOk]
      rfl
    · simp only [runOne, hsm, Bool.false_eq_true, if_false, hd,
        List.map, evForgetOk]
      rfl
  · intro hdf mf
    exact runFiles_no_delete cfg env hdf mf fs

/-- Witness for C1: both branches of the amended statement at concrete
inputs. -/
theorem c1_delete_invoked_iff_enabled_witness :
    (sampleFile "/in/movie.mkv".data = false
      ∧ (runOne cfgDeleteSource fsDeleteDemo envMkdirFails
            "/in/movie.mkv".data).2.map evForgetOk =
          [Event.encodeEv "/in/movie.mkv".data
             (handbrakeOutputFile "/tmp".data "/in/movie.mkv".data),
           Event.moveEv "/in/movie.mkv".data
             (handbrakeOutputFile "/tmp".data "/in/movie.mkv".data) false]
          ++ (if cfgDeleteSource.deleteSourceFile then
                [Event.deleteEv "/in/movie.mkv".data "/in/movie.mkv".data false]
              else []))
    ∧ ((runFiles cfgNoDelete fsDeleteDemo envMkdirFails
          ["/in/movie.mkv".data]).2.filter isDeleteEv) = [] :=
  ⟨⟨by decide,
     (c1_delete_invoked_iff_enabled cfgDeleteSource fsDeleteDemo envMkdirFails
       "/in/movie.mkv".data).1 (by decide)⟩,
   (c1_delete_invoked_iff_enabled cfgNoDelete fsDeleteDemo envMkdirFails
       "/in/movie.mkv".data).2 (by decide) ["/in/movie.mkv".data]⟩

/-- Configuration for the C3 scenario: a working directory other than
"/tmp" is configured on the Encoder. -/
def cfgScratch : EncoderCfg :=
  { inputDir := "/in".data, destinationDir := "/dest".data,
    workingDir := "/scratch".data }

/-- C3 is violated by the code: the Encoder stores the configured working
directory but encode_media_files constructs its Handbrake without passing
it, so the output path is rooted at the Handbrake default "/tmp" and not
at the configured directory; indeed the whole per-file pipeline does not
depend on the configured working directory at all. -/
theorem c3_output_rooted_at_tmp_despite_config :
    cfgScratch.workingDir = "/scratch".data
    ∧ (runFiles cfgScratch fsTwoMovies envTwoMovies ["/in/a/movie.mkv".data]).2 =
        [Event.encodeEv "/in/a/movie.mkv".data "/tmp/movie.m4v".data,
         Event.moveEv "/in/a/movie.mkv".data "/tmp/movie.m4v".data true]
    ∧ ("/tmp".data <+: "/tmp/movie.m4v".data)
    ∧ ¬ ("/scratch".data <+: "/tmp/movie.m4v".data)
    ∧ (∀ (cfg : EncoderCfg) (fs : FS) (env : Env) (m : Str) (w : Str),
        runOne { cfg with workingDir := w } fs env m = runOne cfg fs env m) :=
  ⟨rfl, by decide, by decide, by decide, fun _ _ _ _ _ => rfl⟩

/-- Per-file contribution of the loop body to the encode events for `m`. -/
theorem runOne_encode_filter (cfg : EncoderCfg) (fs : FS) (env : Env) (x m : Str) :
    ((runOne cfg fs env x).2.filter (isEncodeOf m)).length
      = if sampleFile x = true then 0 else if x = m then 1 else 0 := by
  by_cases hs : sampleFile x = true
  · simp [runOne, hs]
  · by_cases hd : cfg.deleteSourceFile = true
    · by_cases hm : x = m
      · subst hm
        simp [runOne, hs, hd, isEncodeOf, isMoveOf, isDeleteEv]
      · simp [runOne, hs, hd, isEncodeOf, hm]
    · by_cases hm : x = m
      · subst hm
        simp [runOne, hs, hd, isEncodeOf]
      · simp [runOne, hs, hd, isEncodeOf, hm]

/-- Per-file contribution of the loop body to the move attempts for `m`. -/
theorem runOne_move_filter (cfg : EncoderCfg) (fs : FS) (env : Env) (x m : Str) :
    ((runOne cfg fs env x).2.filter (isMoveOf m)).length
      = if sampleFile x = true then 0 else if x = m then 1 else 0 := by
  by_cases hs : sampleFile x = true
  · simp [runOne, hs]
  · by_cases hd : cfg.deleteSourceFile = true
    · by_cases hm : x = m
      · subst hm
        simp [runOne, hs, hd, isMoveOf]
      · simp [runOne, hs, hd, isMoveOf, hm]
    · by_cases hm : x = m
      · subst hm
        simp [runOne, hs, hd, isMoveOf]
      · simp [runOne, hs, hd, isMoveOf, hm]

/-- Encode events for `m` over a whole run: none when `m` is a sample
file, one per occurrence of `m` in the discovered list otherwise. -/
theorem runFiles_encode_filter (cfg : EncoderCfg) (env : Env) (m : Str) :
    ∀ (mf : List Str) (fs : FS),
      ((runFiles cfg fs env mf).2.filter (isEncodeOf m)).length
        = if sampleFile m = true then 0 else mf.count m := by
  intro mf
  induction mf with
  | nil =>
    intro fs
    simp [runFiles]
  | cons x rest ih =>
    intro fs
    simp only [runFiles, List.filter_append, List.length_append]
    rw [runOne_encode_filter, ih]
    by_cases hsm : sampleFile m = true
    · by_cases hm : x = m
      · subst hm
        simp [hsm]
      · simp [hsm, hm]
    · by_cases hm : x = m
      · subst hm
        simp [hsm, List.count_cons, Nat.add_comm]
      · have hm' : ¬(m == x) = true := by simp [Ne.symm hm]
        simp [hsm, hm, List.count_cons, hm']

/-- Move attempts for `m` over a whole run, analogously. -/
theorem runFiles_move_filter (cfg : EncoderCfg) (env : Env) (m : Str) :
    ∀ (mf : List Str) (fs : FS),
      ((runFiles cfg fs env mf).2.filter (isMoveOf m)).length
        = if sampleFile m = true then 0 else mf.count m := by
  intro mf
  induction mf with
  | nil =>
    intro fs
    simp [runFiles]
  | cons x rest ih =>
    intro fs
    simp only [runFiles, List.filter_append, List.length_append]
    rw [runOne_move_filter, ih]
    by_cases hsm : sampleFile m = true
    · by_cases hm : x = m
      · subst hm
        simp [hsm]
      · simp [hsm, hm]
    · by_cases hm : x = m
      · subst hm
        simp [hsm, List.count_cons, Nat.add_comm]
      · have hm' : ¬(m == x) = true := by simp [Ne.symm hm]
        simp [hsm, hm, List.count_cons, hm']

/-- C5: over a whole run of encode_media_files, every discovered
non-sample file receives exactly one encode and one move attempt per
occurrence in the discovered list, and a sample file receives no encode
at all. -/
theorem c5_one_encode_one_move_per_nonsample :
    ∀ (cfg : EncoderCfg) (listing : Option FTree) (fs : FS) (env : Env) (m : Str),
      (sampleFile m = false →
        ((encodeMediaFiles cfg listing fs env).2.filter (isEncodeOf m)).length
            = (mediaFilesImpl cfg.inputDir listing).count m
        ∧ ((encodeMediaFiles cfg listing fs env).2.filter (isMoveOf m)).length
            = (mediaFilesImpl cfg.inputDir listing).count m)
      ∧ (sampleFile m = true →
        ((encodeMediaFiles cfg listing fs env).2.filter (isEncodeOf m)).length
          = 0) := by
  intro cfg listing fs env m
  constructor
  · intro hsm
    constructor
    · have h := runFiles_encode_filter cfg env m
        (mediaFilesImpl cfg.inputDir listing) fs
      simpa [encodeMediaFiles, hsm] using h
    · have h := runFiles_move_filter cfg env m
        (mediaFilesImpl cfg.inputDir listing) fs
      simpa [encodeMediaFiles, hsm] using h
  · intro hsm
    have h := runFiles_encode_filter cfg env m
      (mediaFilesImpl cfg.inputDir listing) fs
    simpa [encodeMediaFiles, hsm] using h

/-- Input listing for the C5 witness: one regular file and one sample. -/
def demoListing : FTree :=
  FTree.fileE "movie.mkv".data (FTree.fileE "movie_sample.mkv".data FTree.nilE)

/-- Witness for C5, on a listing holding one non-sample and one sample
file. -/
theorem c5_one_encode_one_move_per_nonsample_witness :
    (sampleFile "/in/movie.mkv".data = false
      ∧ ((encodeMediaFiles cfgNoDelete (some demoListing) fsDeleteDemo
            envMkdirFails).2.filter (isEncodeOf "/in/movie.mkv".data)).length
          = (mediaFilesImpl cfgNoDelete.inputDir (some demoListing)).count
              "/in/movie.mkv".data
      ∧ ((encodeMediaFiles cfgNoDelete (some demoListing) fsDeleteDemo
            envMkdirFails).2.filter (isMoveOf "/in/movie.mkv".data)).length
          = (mediaFilesImpl cfgNoDelete.inputDir (some demoListing)).count
              "/in/movie.mkv".data)
    ∧ (sampleFile "/in/movie_sample.mkv".data = true
      ∧ ((encodeMediaFiles cfgNoDelete (some demoListing) fsDeleteDemo
            envMkdirFails).2.filter
              (isEncodeOf "/in/movie_sample.mkv".data)).length = 0) :=
  ⟨⟨by decide,
    (c5_one_encode_one_move_per_nonsample cfgNoDelete (some demoListing)
      fsDeleteDemo envMkdirFails "/in/movie.mkv".data).1 (by decide)⟩,
   ⟨by decide,
    (c5_one_encode_one_move_per_nonsample cfgNoDelete (some demoListing)
      fsDeleteDemo envMkdirFails "/in/movie_sample.mkv".data).2 (by decide)⟩⟩

/-- Writing a file makes its content readable at that path. -/
theorem FS.content_write_self (fs : FS) (p : Str) (c : Nat) :
    (fs.write p c).content p = some c := by
  simp [FS.write, FS.content]

/-- The second phase of move_file never touches directories. -/
theorem moveFileStep2_dirs (d : Str) (fs : FS) (env : Env) (p : Str) :
    (moveFileStep2 d fs env p).2.dirs = fs.dirs := by
  unfold moveFileStep2
  by_cases h1 : fs.pathExists p = true
  · rw [if_pos h1]
    by_cases h2 : env.moveOk p (pyJoin d (basenameChars p)) = true
    · rw [if_pos h2]
      unfold FS.moveEntry
      cases fs.content p <;> rfl
    · rw [if_neg h2]
  · rw [if_neg h1]

/-- When the second phase of move_file fails, the files are unchanged. -/
theorem moveFileStep2_false_files (d : Str) (fs : FS) (env : Env) (p : Str) :
    (moveFileStep2 d fs env p).1 = false →
    (moveFileStep2 d fs env p).2.files = fs.files := by
  intro h
  unfold moveFileStep2 at h ⊢
  by_cases h1 : fs.pathExists p = true
  · rw [if_pos h1] at h ⊢
    by_cases h2 : env.moveOk p (pyJoin d (basenameChars p)) = true
    · rw [if_pos h2] at h
      simp at h
    · rw [if_neg h2]
  · rw [if_neg h1]

/-- When the second phase of move_file succeeds on a regular file, the
file's content appears at destination_dir/basename. -/
theorem moveFileStep2_success_content (d : Str) (fs : FS) (env : Env)
    (p : Str) (c : Nat) (hc : fs.content p = some c)
    (h : (moveFileStep2 d fs env p).1 = true) :
    (moveFileStep2 d fs env p).2.content (pyJoin d (basenameChars p))
      = some c := by
  have hex : fs.pathExists p = true := by simp [FS.pathExists, hc]
  unfold moveFileStep2 at h ⊢
  rw [if_pos hex] at h ⊢
  by_cases h2 : env.moveOk p (pyJoin d (basenameChars p)) = true
  · rw [if_pos h2]
    show (fs.moveEntry p (pyJoin d (basenameChars p))).content _ = some c
    unfold FS.moveEntry
    rw [hc]
    exact FS.content_write_self _ _ _
  · rw [if_neg h2] at h
    simp at h

/-- The second phase of move_file reports failure when shutil.move does. -/
theorem moveFileStep2_moveFails (d : Str) (fs : FS) (env : Env) (p : Str)
    (h2 : env.moveOk p (pyJoin d (basenameChars p)) = false) :
    (moveFileStep2 d fs env p).1 = false := by
  unfold moveFileStep2
  by_cases h1 : fs.pathExists p = true
  · rw [if_pos h1, if_neg (by rw [h2]; exact Bool.false_ne_true)]
  · rw [if_neg h1]

/-- C7: Encoder.move_file ensures the destination directory exists,
creating it and its parents when missing; it returns failure (without
raising) when directory creation fails, when the file does not exist, or
when the underlying move fails; on any failure the filesystem's regular
files — in particular the file at `p` — are untouched; and on success the
file's content is relocated to destination_dir/basename. -/
theorem c7_move_file_semantics :
    ∀ (destDir : Str) (fs : FS) (env : Env) (p : Str),
      (fs.pathExists destDir = false → env.mkdirOk destDir = false →
          moveFile destDir fs env p = (false, fs))
      ∧ (fs.pathExists destDir = true → fs.pathExists p = false →
          moveFile destDir fs env p = (false, fs))
      ∧ (fs.pathExists destDir = false → env.mkdirOk destDir = true →
          ∀ q, q ∈ dirPrefixes destDir →
            (moveFile destDir fs env p).2.isDir q = true)
      ∧ (env.moveOk p (pyJoin destDir (basenameChars p)) = false →
          (moveFile destDir fs env p).1 = false)
      ∧ ((moveFile destDir fs env p).1 = false →
          (moveFile destDir fs env p).2.files = fs.files)
      ∧ (∀ c, fs.content p = some c → (moveFile destDir fs env p).1 = true →
          (moveFile destDir fs env p).2.content
            (pyJoin destDir (basenameChars p)) = some c) := by
  intro destDir fs env p
  refine ⟨?_, ?_, ?_, ?_, ?_, ?_⟩
  · intro h1 h2
    unfold moveFile
    rw [if_pos (by rw [h1]),
      if_neg (by rw [h2]; exact Bool.false_ne_true)]
  · intro h1 h3
    unfold moveFile
    rw [if_neg (by rw [h1]; exact (by simp))]
    unfold moveFileStep2
    rw [if_neg (by rw [h3]; exact Bool.false_ne_true)]
  · intro h1 h2 q hq
    unfold moveFile
    rw [if_pos (by rw [h1]), if_pos h2]
    have hd := moveFileStep2_dirs destDir (fs.mkdirs destDir) env p
    unfold FS.isDir
    rw [hd]
    show ((dirPrefixes destDir ++ fs.dirs).any fun r => r = q) = true
    rw [List.any_eq_true]
    exact ⟨q, List.mem_append_left _ hq, by simp⟩
  · intro hmv
    unfold moveFile
    by_cases h1 : fs.pathExists destDir = false
    · rw [if_pos h1]
      by_cases h2 : env.mkdirOk destDir = true
      · rw [if_pos h2]
        exact moveFileStep2_moveFails _ _ _ _ hmv
      · rw [if_neg h2]
    · rw [if_neg h1]
      exact moveFileStep2_moveFails _ _ _ _ hmv
  · intro h
    unfold moveFile at h ⊢
    by_cases h1 : fs.pathExists destDir = false
    · rw [if_pos h1] at h ⊢
      by_cases h2 : env.mkdirOk destDir = true
      · rw [if_pos h2] at h ⊢
        exact moveFileStep2_false_files _ _ _ _ h
      · rw [if_neg h2]
    · rw [if_neg h1] at h ⊢
      exact moveFileStep2_false_files _ _ _ _ h
  · intro c hc h
    unfold moveFile at h ⊢
    by_cases h1 : fs.pathExists destDir = false
    · rw [if_pos h1] at h ⊢
      by_cases h2 : env.mkdirOk destDir = true
      · rw [if_pos h2] at h ⊢
        exact moveFileStep2_success_content _ _ _ _ _ hc h
      · rw [if_neg h2] at h
        simp at h
    · rw [if_neg h1] at h ⊢
      exact moveFileStep2_success_content _ _ _ _ _ hc h

/-- All-success environment used by the C7 witness. -/
def envAllOk : Env :=
  { mkdirOk := fun _ => true
    moveOk := fun _ _ => true
    deleteOk := fun _ => true
    toolWrites := fun _ => some 1
    exitStatus := fun _ => 0 }

/-- Witness for C7: a successful move into a directory that had to be
created, and a failed move when directory creation fails. -/
theorem c7_move_file_semantics_witness :
    ({ files := [("/w/o.m4v".data, 5)], dirs := ["/w".data] } : FS).content
        "/w/o.m4v".data = some 5
    ∧ (moveFile "/dest/x".data
        { files := [("/w/o.m4v".data, 5)], dirs := ["/w".data] }
        envAllOk "/w/o.m4v".data).1 = true
    ∧ (moveFile "/dest/x".data
        { files := [("/w/o.m4v".data, 5)], dirs := ["/w".data] }
        envAllOk "/w/o.m4v".data).2.content
          (pyJoin "/dest/x".data (basenameChars "/w/o.m4v".data)) = some 5
    ∧ moveFile "/dest/x".data
        { files := [("/w/o.m4v".data, 5)], dirs := ["/w".data] }
        envMkdirFails "/w/o.m4v".data
      = (false, { files := [("/w/o.m4v".data, 5)], dirs := ["/w".data] }) :=
  ⟨by decide, by decide,
   (c7_move_file_semantics "/dest/x".data
      { files := [("/w/o.m4v".data, 5)], dirs := ["/w".data] }
      envAllOk "/w/o.m4v".data).2.2.2.2.2 5 (by decide) (by decide),
   (c7_move_file_semantics "/dest/x".data
      { files := [("/w/o.m4v".data, 5)], dirs := ["/w".data] }
      envMkdirFails "/w/o.m4v".data).1 (by decide) (by decide)⟩

/-- The walk yields exactly the (directory, filename) pairs of the files
in the tree. -/
theorem walkPairs_entryAt :
    ∀ (t : FTree) (root : Str) (rn : Str × Str),
      rn ∈ walkPairs root t ↔ EntryAt root t rn := by
  intro t
  induction t with
  | nilE =>
    intro root rn
    constructor
    · intro h
      simp [walkPairs, filesOf, subWalk] at h
    · intro h
      cases h
  | fileE n rest ih =>
    intro root rn
    constructor
    · intro h
      rcases List.mem_append.mp h with h1 | h1
      · rcases List.mem_cons.mp h1 with h2 | h2
        · rw [h2]
          exact EntryAt.fileHere
        · exact EntryAt.fileSkip
            ((ih root rn).mp (List.mem_append_left _ h2))
      · exact EntryAt.fileSkip
          ((ih root rn).mp (List.mem_append_right _ h1))
    · intro h
      cases h with
      | fileHere => exact List.mem_append_left _ (List.mem_cons_self _ _)
      | fileSkip h1 =>
        rcases List.mem_append.mp ((ih root rn).mpr h1) with h2 | h2
        · exact List.mem_append_left _ (List.mem_cons_of_mem _ h2)
        · exact List.mem_append_right _ h2
  | dirE n sub rest ihs ihr =>
    intro root rn
    constructor
    · intro h
      rcases List.mem_append.mp h with h1 | h1
      · exact EntryAt.dirSkip ((ihr root rn).mp (List.mem_append_left _ h1))
      · rcases List.mem_append.mp h1 with h2 | h2
        · exact EntryAt.dirHere ((ihs (pyJoin root n) rn).mp h2)
        · exact EntryAt.dirSkip ((ihr root rn).mp (List.mem_append_right _ h2))
    · intro h
      cases h with
      | dirHere h1 =>
        exact List.mem_append_right _
          (List.mem_append_left _ ((ihs (pyJoin root n) rn).mpr h1))
      | dirSkip h1 =>
        rcases List.mem_append.mp ((ihr root rn).mpr h1) with h2 | h2
        · exact List.mem_append_left _ h2
        · exact List.mem_append_right _ (List.mem_append_right _ h2)

/-- C8: Encoder.media_files returns exactly the joined paths of the
regular files found recursively under the input directory whose extension
is in the recognized set, and returns the empty list when the input
directory does not exist (the walk yields nothing). -/
theorem c8_media_files_exactly_matching :
    ∀ (root : Str) (entries : FTree) (p : Str),
      mediaFilesImpl root none = []
      ∧ (p ∈ mediaFilesImpl root (some entries) ↔
          ∃ r n, EntryAt root entries (r, n)
            ∧ splitextExt n ∈ validExtensions ∧ p = pyJoin r n) := by
  intro root entries p
  refine ⟨rfl, ?_⟩
  show p ∈ (walkPairs root entries).filterMap _ ↔ _
  rw [List.mem_filterMap]
  constructor
  · rintro ⟨rn, hmem, hsome⟩
    by_cases hv : splitextExt rn.2 ∈ validExtensions
    · rw [if_pos hv] at hsome
      exact ⟨rn.1, rn.2, (walkPairs_entryAt entries root rn).mp hmem, hv,
        (Option.some.inj hsome).symm⟩
    · rw [if_neg hv] at hsome
      cases hsome
  · rintro ⟨r, n, hent, hv, hp⟩
    exact ⟨(r, n), (walkPairs_entryAt entries root (r, n)).mpr hent,
      by rw [if_pos hv, hp]⟩

/-- Scanning a double quote toggles the quoting state. -/
theorem shellTokensGo_quote (t : Str) (inQ : Bool) (acc : Str) :
    shellTokensGo ('"' :: t) inQ acc = shellTokensGo t (!inQ) acc := by
  simp [shellTokensGo]

/-- An unquoted space after a nonempty accumulator emits the word. -/
theorem shellTokensGo_space_ne (t : Str) (acc : Str) (h : acc ≠ []) :
    shellTokensGo (' ' :: t) false acc
      = acc.reverse :: shellTokensGo t false [] := by
  simp [shellTokensGo, h]

/-- End of input with a nonempty accumulator emits the final word. -/
theorem shellTokensGo_nil_ne (acc : Str) (h : acc ≠ []) :
    shellTokensGo [] false acc = [acc.reverse] := by
  simp [shellTokensGo, h]

/-- Inside quotes, quote-free characters are accumulated verbatim. -/
theorem shellTokensGo_inQuote :
    ∀ (s : Str), '"' ∉ s → ∀ (t acc : Str),
      shellTokensGo (s ++ t) true acc = shellTokensGo t true (s.reverse ++ acc) := by
  intro s
  induction s with
  | nil =>
    intro _ t acc
    simp
  | cons c s' ih =>
    intro hq t acc
    have hc : ¬(c = '"') := fun h => hq (h ▸ List.mem_cons_self c s')
    have hs' : '"' ∉ s' := fun h => hq (List.mem_cons_of_mem c h)
    show shellTokensGo (c :: (s' ++ t)) true acc = _
    rw [shellTokensGo]
    rw [if_neg hc, if_pos rfl]
    rw [ih hs' t (c :: acc)]
    simp

/-- Outside quotes, characters that are neither quotes nor spaces are
accumulated verbatim. -/
theorem shellTokensGo_word :
    ∀ (s : Str), '"' ∉ s → ' ' ∉ s → ∀ (t acc : Str),
      shellTokensGo (s ++ t) false acc
        = shellTokensGo t false (s.reverse ++ acc) := by
  intro s
  induction s with
  | nil =>
    intro _ _ t acc
    simp
  | cons c s' ih =>
    intro hq hsp t acc
    have hc : ¬(c = '"') := fun h => hq (h ▸ List.mem_cons_self c s')
    have hcs : ¬(c = ' ') := fun h => hsp (h ▸ List.mem_cons_self c s')
    have hs' : '"' ∉ s' := fun h => hq (List.mem_cons_of_mem c h)
    have hss' : ' ' ∉ s' := fun h => hsp (List.mem_cons_of_mem c h)
    show shellTokensGo (c :: (s' ++ t)) false acc = _
    rw [shellTokensGo]
    rw [if_neg hc, if_neg (by simp), if_neg hcs]
    rw [ih hs' hss' t (c :: acc)]
    simp

/-- One quoted option followed by a space: the shell receives the flag
with the raw value as a single word. -/
theorem shellTokensGo_fmtQuoted (flag v t : Str)
    (hf1 : '"' ∉ flag) (hf2 : ' ' ∉ flag) (hfne : flag ≠ []) (hv : '"' ∉ v) :
    shellTokensGo (fmtQuoted flag v ++ ' ' :: t) false []
      = (flag ++ v) :: shellTokensGo t false [] := by
  unfold fmtQuoted
  have hshape : (flag ++ '"' :: (v ++ ['"'])) ++ ' ' :: t
      = flag ++ ('"' :: (v ++ ('"' :: ' ' :: t))) := by
    simp
  rw [hshape, shellTokensGo_word flag hf1 hf2, List.append_nil,
    shellTokensGo_quote, Bool.not_false, shellTokensGo_inQuote v hv,
    shellTokensGo_quote, Bool.not_true,
    shellTokensGo_space_ne _ _ (by simp [hfne])]
  simp

/-- The final quoted option: the shell receives one last word. -/
theorem shellTokensGo_fmtQuoted_last (flag v : Str)
    (hf1 : '"' ∉ flag) (hf2 : ' ' ∉ flag) (hfne : flag ≠ []) (hv : '"' ∉ v) :
    shellTokensGo (fmtQuoted flag v) false [] = [flag ++ v] := by
  unfold fmtQuoted
  have hshape : flag ++ '"' :: (v ++ ['"'])
      = flag ++ ('"' :: (v ++ ['"'])) := rfl
  rw [hshape, shellTokensGo_word flag hf1 hf2, List.append_nil,
    shellTokensGo_quote, Bool.not_false, shellTokensGo_inQuote v hv,
    shellTokensGo_quote, Bool.not_true,
    shellTokensGo_nil_ne _ (by simp [hfne])]
  simp

/-- C9 (amended): for every executable name (nonempty, free of quotes and
spaces) and all input, output and preset values free of double quotes —
in particular values with embedded spaces — the shell splits the
command built by Handbrake.encode into exactly the executable word and
the three option words, each carrying its full value as a single intact
argument.  A double quote inside a value breaks this (see the
counterexample). -/
theorem c9_quoted_paths_with_spaces_intact :
    ∀ (exe i o p : Str),
      exe ≠ [] → '"' ∉ exe → ' ' ∉ exe → '"' ∉ i → '"' ∉ o → '"' ∉ p →
      shellTokens (handbrakeCmd exe i o p)
        = [exe, "--input=".data ++ i, "--output=".data ++ o,
           "--preset=".data ++ p] := by
  intro exe i o p hne hq hs hi ho hp
  unfold shellTokens handbrakeCmd
  rw [shellTokensGo_word exe hq hs, List.append_nil,
    shellTokensGo_space_ne _ _ (by simp [hne]), List.reverse_reverse,
    shellTokensGo_fmtQuoted _ _ _ (by decide) (by decide) (by decide) hi,
    shellTokensGo_fmtQuoted _ _ _ (by decide) (by decide) (by decide) ho,
    shellTokensGo_fmtQuoted_last _ _ (by decide) (by decide) (by decide) hp]

/-- Witness for C9: paths with embedded spaces arrive intact. -/
theorem c9_quoted_paths_with_spaces_intact_witness :
    (' ' ∈ "/in/my movie.mkv".data
      ∧ ' ' ∈ "/tmp/my movie.m4v".data)
    ∧ shellTokens (handbrakeCmd "/usr/bin/HandBrakeCLI".data
        "/in/my movie.mkv".data "/tmp/my movie.m4v".data defaultPreset)
      = ["/usr/bin/HandBrakeCLI".data,
         "--input=".data ++ "/in/my movie.mkv".data,
         "--output=".data ++ "/tmp/my movie.m4v".data,
         "--preset=".data ++ defaultPreset] :=
  ⟨⟨by decide, by decide⟩,
   c9_quoted_paths_with_spaces_intact "/usr/bin/HandBrakeCLI".data
     "/in/my movie.mkv".data "/tmp/my movie.m4v".data defaultPreset
     (by decide) (by decide) (by decide) (by decide) (by decide) (by decide)⟩

/-- C9 counterexample: a path containing an embedded space and a double
quote is not conveyed to the external tool as a single intact argument
(here the command uses exactly the output path and preset the code would
compute for this input). -/
theorem c9_counterexample_quote_in_path :
    ' ' ∈ "/in/a \"b.mkv".data
    ∧ ¬ (("--input=".data ++ "/in/a \"b.mkv".data) ∈
          shellTokens (handbrakeCmd "/usr/bin/HandBrakeCLI".data
            "/in/a \"b.mkv".data
            (handbrakeOutputFile "/tmp".data "/in/a \"b.mkv".data)
            defaultPreset)) :=
  ⟨by decide, by decide⟩
